import Mathlib

/-!
Verification of the key-sync logic of coder-gerrit-ssh-sync.

Strings are modelled as `List Char`.  The SSH-key normalization is
translated from `addSSHKey` (cmd/coder-gerrit-ssh-sync/main.go and
pkg/gerritclient/client.go), the per-user sync loop from the `syncUser`
variant that skips non-positive account ids and rejects empty keys, and
the orchestrator with an existing-key check is modelled from the spec
(its implementation is exercised only by tests in this repository).
-/

set_option autoImplicit false

/-- Whitespace test used by Go `unicode.IsSpace` on the Latin-1 range
(the only characters relevant to the trimming done here). -/
def isGoSpace (c : Char) : Bool :=
  c = ' ' || c = '\t' || c = '\n' || c = Char.ofNat 11 || c = Char.ofNat 12 ||
    c = '\r' || c = Char.ofNat 0x85 || c = Char.ofNat 0xA0

/-- Left half of Go `strings.TrimSpace`. -/
def trimLeft (l : List Char) : List Char :=
  l.dropWhile isGoSpace

/-- Right half of Go `strings.TrimSpace`. -/
def trimRight (l : List Char) : List Char :=
  (l.reverse.dropWhile isGoSpace).reverse

/-- Go `strings.TrimSpace`. -/
def trimSpace (l : List Char) : List Char :=
  trimRight (trimLeft l)

/-- Split at the first occurrence of `c`: the part before it and, when
`c` occurs at all, the part after it. -/
def breakOnChar (c : Char) : List Char → List Char × Option (List Char)
  | [] => ([], none)
  | x :: xs =>
    if x = c then ([], some xs)
    else
      let r := breakOnChar c xs
      (x :: r.1, r.2)

/-- Go `strings.SplitN s sep n` for a single-character separator `c`:
at most `n` pieces, the last piece holding the unsplit remainder. -/
def splitOnCharN (c : Char) : Nat → List Char → List (List Char)
  | 0, _ => []
  | Nat.succ n, l =>
    if n = 0 then [l]
    else
      match breakOnChar c l with
      | (a, none) => [a]
      | (a, some r) => a :: splitOnCharN c n r

/-- Go `strings.Join pieces " "`. -/
def joinSpace : List (List Char) → List Char
  | [] => []
  | [x] => x
  | x :: y :: ys => x ++ ' ' :: joinSpace (y :: ys)

/-- The fixed comment the tool appends to two-field keys. -/
def coderSync : List Char := "coder-sync".toList

/-- Key-string normalization performed by `addSSHKey` in the source:
trim, split on single spaces into at most 3 pieces, append the
"coder-sync" comment iff exactly 2 pieces resulted, re-join with
single spaces. -/
def normalizeKey (k : List Char) : List Char :=
  let pieces := splitOnCharN ' ' 3 (trimSpace k)
  let pieces2 := if pieces.length = 2 then pieces ++ [coderSync] else pieces
  joinSpace pieces2

/-- The raw registration request `addSSHKey` issues (PUT body sent with
method overridden to POST against /accounts/{id}/sshkeys). -/
structure PutRequest where
  accountID : Int
  body : List Char
  deriving DecidableEq

/-- The request `addSSHKey` builds and sends for an account and raw key:
the body is exactly the normalized key string. -/
def addSSHKeyRequest (accountID : Int) (publicKey : List Char) : PutRequest :=
  { accountID := accountID, body := normalizeKey publicKey }

example : normalizeKey "ssh-rsa AAAA".toList = "ssh-rsa AAAA coder-sync".toList := by decide
example : normalizeKey "  ssh-rsa AAAA me@host  ".toList = "ssh-rsa AAAA me@host".toList := by decide
example : normalizeKey "".toList = "".toList := by decide
example : normalizeKey ['a', '\t', 'b'] = ['a', '\t', 'b'] := by decide

/-! ## The per-user sync loop (`syncUser`, validating variant)

Translated from the `syncUser` that checks for an empty fetched key and
skips accounts with non-positive ids, calling the injected
`gerritAccountsService.AddSSHKey` for each remaining account and
aggregating per-account failures with `errors.Join`. -/

/-- `gerrit.AccountInfo`, restricted to the fields the sync reads. -/
structure AccountInfo where
  accountID : Int
  inactive : Bool := false
  deriving DecidableEq

/-- Environment a single `syncUser` call runs against: the outcome of
the Gerrit account query, of the Coder key fetch, and of the
`AddSSHKey` call per account id (`none` = success). -/
structure SyncEnv where
  query : Except String (List AccountInfo)
  getKey : Except String (List Char)
  addKey : Int → Option String

/-- Error value returned by `syncUser`: the wrapped query error, the
wrapped key-fetch error, the missing-key error, or the `errors.Join`
of the per-account failures, each tagged with its account id. -/
inductive SyncError where
  | queryFailed (cause : String)
  | keyFetchFailed (cause : String)
  | missingKey
  | addFailed (fails : List (Int × String))
  deriving DecidableEq

/-- Observable outcome of one `syncUser` call: whether the Coder key
endpoint was queried, the account ids `AddSSHKey` was called for in
order, and the returned error (`none` = nil). -/
structure SyncResult where
  keyFetched : Bool
  calls : List Int
  result : Option SyncError
  deriving DecidableEq

/-- One iteration of the account loop in `syncUser`: skip non-positive
ids, otherwise call `AddSSHKey` and record a tagged failure. -/
def syncStep (env : SyncEnv) (acc : List Int × List (Int × String)) (gu : AccountInfo) :
    List Int × List (Int × String) :=
  if gu.accountID ≤ 0 then acc
  else
    match env.addKey gu.accountID with
    | none => (acc.1 ++ [gu.accountID], acc.2)
    | some e => (acc.1 ++ [gu.accountID], acc.2 ++ [(gu.accountID, e)])

/-- The `syncUser` of the validating variant: query accounts (failure is
fatal), succeed on zero matches, fetch the key (failure or emptiness is
fatal), then loop over the accounts aggregating per-account failures. -/
def syncUser (env : SyncEnv) : SyncResult :=
  match env.query with
  | .error e => ⟨false, [], some (.queryFailed e)⟩
  | .ok gus =>
    if gus.isEmpty then ⟨false, [], none⟩
    else
      match env.getKey with
      | .error e => ⟨true, [], some (.keyFetchFailed e)⟩
      | .ok k =>
        if k.isEmpty then ⟨true, [], some .missingKey⟩
        else
          let fin := gus.foldl (syncStep env) ([], [])
          ⟨true, fin.1, if fin.2.isEmpty then none else some (.addFailed fin.2)⟩

/-- The account ids `syncUser` attempts: the positive ones, in order. -/
def validIds (gus : List AccountInfo) : List Int :=
  (gus.filter fun gu => decide (0 < gu.accountID)).map (·.accountID)

/-- The tagged failures the account loop collects. -/
def addFailures (env : SyncEnv) (gus : List AccountInfo) : List (Int × String) :=
  (gus.filter fun gu => decide (0 < gu.accountID)).filterMap fun gu =>
    (env.addKey gu.accountID).map fun e => (gu.accountID, e)

example :
    syncUser { query := .ok [⟨-1, false⟩, ⟨3, false⟩], getKey := .ok "a b".toList,
               addKey := fun _ => none } = ⟨true, [3], none⟩ := by decide
example :
    syncUser { query := .ok [⟨3, false⟩, ⟨4, false⟩], getKey := .ok "a b".toList,
               addKey := fun i => if i = 3 then some "boom" else none } =
      ⟨true, [3, 4], some (.addFailed [(3, "boom")])⟩ := by decide

theorem foldl_syncStep (env : SyncEnv) (gus : List AccountInfo) :
    ∀ acc : List Int × List (Int × String),
      gus.foldl (syncStep env) acc = (acc.1 ++ validIds gus, acc.2 ++ addFailures env gus) := by
  induction gus with
  | nil => intro acc; simp [validIds, addFailures]
  | cons gu gus ih =>
    intro acc
    rw [List.foldl_cons, ih]
    by_cases h : gu.accountID ≤ 0
    · have hp : ¬ (0 < gu.accountID) := by omega
      simp [syncStep, h, validIds, addFailures, List.filter_cons, hp]
    · have hp : 0 < gu.accountID := by omega
      cases hk : env.addKey gu.accountID with
      | none => simp [syncStep, h, validIds, addFailures, List.filter_cons, hp, hk]
      | some e => simp [syncStep, h, validIds, addFailures, List.filter_cons, hp, hk]

/-- Shape of a `syncUser` run that reaches the account loop. -/
theorem syncUser_ok (env : SyncEnv) (gus : List AccountInfo) (k : List Char)
    (hq : env.query = .ok gus) (hne : gus ≠ []) (hk : env.getKey = .ok k) (hkne : k ≠ []) :
    syncUser env =
      ⟨true, validIds gus,
        if (addFailures env gus).isEmpty then none
        else some (.addFailed (addFailures env gus))⟩ := by
  unfold syncUser
  rw [hq, hk]
  simp only [List.isEmpty_iff, hne, if_neg, hkne]
  have h := foldl_syncStep env gus ([], [])
  simp only [List.nil_append] at h
  simp [h, hne, hkne]

theorem validIds_pos (gus : List AccountInfo) : ∀ i ∈ validIds gus, 0 < i := by
  intro i hi
  simp only [validIds, List.mem_map, List.mem_filter] at hi
  obtain ⟨gu, ⟨_, hgt⟩, rfl⟩ := hi
  exact of_decide_eq_true hgt

theorem addFailures_pos (env : SyncEnv) (gus : List AccountInfo) :
    ∀ p ∈ addFailures env gus, 0 < p.1 := by
  intro p hp
  simp only [addFailures, List.mem_filterMap, List.mem_filter, Option.map_eq_some'] at hp
  obtain ⟨gu, ⟨_, hgt⟩, e, _, rfl⟩ := hp
  exact of_decide_eq_true hgt

/-- Claim C3: when the account query returns two or more accounts and the
key fetch yields a non-empty key, a registration failure on one account
does not stop the loop: `AddSSHKey` is attempted for every account with a
positive id in order, and the returned value is nil when no per-account
call failed and otherwise the aggregate of every failed account's id
paired with its underlying cause. -/
theorem syncUser_partial_failure_aggregation (env : SyncEnv) (gus : List AccountInfo)
    (k : List Char) (hq : env.query = .ok gus) (h2 : 2 ≤ gus.length)
    (hk : env.getKey = .ok k) (hkne : k ≠ []) :
    (syncUser env).calls = validIds gus ∧
      (syncUser env).result =
        (if addFailures env gus = [] then none
         else some (.addFailed (addFailures env gus))) := by
  have hne : gus ≠ [] := by
    intro h
    subst h
    simp at h2
  rw [syncUser_ok env gus k hq hne hk hkne]
  simp [List.isEmpty_iff]

theorem syncUser_partial_failure_aggregation_witness :
    (let env : SyncEnv :=
      { query := .ok [⟨3, false⟩, ⟨4, false⟩], getKey := .ok "a b".toList,
        addKey := fun i => if i = 3 then some "boom" else none }
     (syncUser env).calls = validIds [⟨3, false⟩, ⟨4, false⟩] ∧
       (syncUser env).result =
         (if addFailures env [⟨3, false⟩, ⟨4, false⟩] = [] then none
          else some (.addFailed (addFailures env [⟨3, false⟩, ⟨4, false⟩])))) :=
  syncUser_partial_failure_aggregation _ _ ("a b".toList) rfl (by decide) rfl (by decide)

/-- Claim C4: a successful key fetch returning the empty public-key
string is fatal: `syncUser` returns the missing-key error and performs
zero registration calls, even with matching accounts present. -/
theorem syncUser_missing_key_fatal (env : SyncEnv) (gus : List AccountInfo)
    (hq : env.query = .ok gus) (hne : gus ≠ []) (hk : env.getKey = .ok []) :
    syncUser env = ⟨true, [], some .missingKey⟩ := by
  unfold syncUser
  rw [hq, hk]
  simp [hne]

theorem syncUser_missing_key_fatal_witness :
    syncUser { query := .ok [⟨123, false⟩], getKey := .ok [],
               addKey := fun _ => none } = ⟨true, [], some .missingKey⟩ :=
  syncUser_missing_key_fatal _ [⟨123, false⟩] rfl (by decide) rfl

theorem syncUser_calls_pos (env : SyncEnv) : ∀ i ∈ (syncUser env).calls, 0 < i := by
  obtain ⟨q, gk, ak⟩ := env
  cases q with
  | error e => intro i hi; simp [syncUser] at hi
  | ok gus =>
    by_cases hne : gus.isEmpty
    · intro i hi; simp [syncUser, hne] at hi
    · cases gk with
      | error e => intro i hi; simp [syncUser, hne] at hi
      | ok k =>
        by_cases hkne : k.isEmpty
        · intro i hi; simp [syncUser, hne, hkne] at hi
        · intro i hi
          simp [syncUser, hne, hkne, foldl_syncStep] at hi
          exact validIds_pos gus i hi

theorem syncUser_fails_pos (env : SyncEnv) :
    ∀ fails, (syncUser env).result = some (.addFailed fails) → ∀ p ∈ fails, 0 < p.1 := by
  obtain ⟨q, gk, ak⟩ := env
  cases q with
  | error e => intro fails hf; simp [syncUser] at hf
  | ok gus =>
    by_cases hne : gus.isEmpty
    · intro fails hf; simp [syncUser, hne] at hf
    · cases gk with
      | error e => intro fails hf; simp [syncUser, hne] at hf
      | ok k =>
        by_cases hkne : k.isEmpty
        · intro fails hf; simp [syncUser, hne, hkne] at hf
        · intro fails hf p hp
          by_cases hemp : (addFailures { query := .ok gus, getKey := .ok k, addKey := ak } gus).isEmpty
          · simp [syncUser, hne, hkne, foldl_syncStep, hemp] at hf
          · simp [syncUser, hne, hkne, foldl_syncStep, hemp] at hf
            subst hf
            exact addFailures_pos _ gus p hp

/-- Claim C5: an account returned by the query with a non-positive id is
never attempted — no registration call is issued for its id — and it
contributes no entry to the aggregated failures. -/
theorem syncUser_skips_invalid_account (env : SyncEnv) (gus : List AccountInfo)
    (gu : AccountInfo) (hq : env.query = .ok gus) (ha : gu ∈ gus)
    (hle : gu.accountID ≤ 0) :
    gu.accountID ∉ (syncUser env).calls ∧
      ∀ fails, (syncUser env).result = some (.addFailed fails) →
        ∀ p ∈ fails, p.1 ≠ gu.accountID := by
  refine ⟨fun hmem => ?_, fun fails hf p hp => ?_⟩
  · have := syncUser_calls_pos env _ hmem
    omega
  · have := syncUser_fails_pos env fails hf p hp
    omega

theorem syncUser_skips_invalid_account_witness :
    (let env : SyncEnv :=
      { query := .ok [⟨-1, false⟩, ⟨123, false⟩], getKey := .ok "a b".toList,
        addKey := fun _ => none }
     (-1 : Int) ∉ (syncUser env).calls ∧
       ∀ fails, (syncUser env).result = some (.addFailed fails) →
         ∀ p ∈ fails, p.1 ≠ (-1 : Int)) :=
  syncUser_skips_invalid_account _ _ ⟨-1, false⟩ rfl (by decide) (by decide)

/-- Claim C7: an empty account-query result is success: `syncUser`
returns nil, fetches no key, and issues no registration call. -/
theorem syncUser_no_match_success (env : SyncEnv) (hq : env.query = .ok []) :
    syncUser env = ⟨false, [], none⟩ := by
  unfold syncUser
  rw [hq]
  simp

theorem syncUser_no_match_success_witness :
    syncUser { query := .ok [], getKey := .ok "a b".toList,
               addKey := fun _ => none } = ⟨false, [], none⟩ :=
  syncUser_no_match_success _ rfl

/-- Claim C8: a failed account query is immediately fatal: `syncUser`
returns the wrapped query error (not an aggregate of per-account
failures), never fetches the key, and issues zero registration calls. -/
theorem syncUser_query_failure_fatal (env : SyncEnv) (e : String)
    (hq : env.query = .error e) :
    syncUser env = ⟨false, [], some (.queryFailed e)⟩ := by
  unfold syncUser
  rw [hq]

theorem syncUser_query_failure_fatal_witness :
    syncUser { query := .error "transport down", getKey := .ok "a b".toList,
               addKey := fun _ => none } =
      ⟨false, [], some (.queryFailed "transport down")⟩ :=
  syncUser_query_failure_fatal _ "transport down" rfl

/-! ## The orchestrator with an existing-key check

Modelled from the spec: the repository's sources contain no `syncUser`
with the existing-key checker (sections 4.4 and 4.5 of the spec; only
its tests appear, in the unnamed test file using `ListSSHKeys` mocks).
The model below follows the spec's words: resolve accounts, fetch and
normalize the key once, and per valid account list the registered keys,
skip when one with the same algorithm and material is present,
otherwise register, aggregating per-account failures. -/

/-- Modelled from the spec: the algorithm+material projection of a key
used by the existing-key checker ("comment is excluded from the
equality test"): the first two space-separated fields. -/
def algoMaterial (k : List Char) : List (List Char) :=
  (splitOnCharN ' ' 3 k).take 2

/-- Modelled from the spec: whether a registered-key list already holds
a key equivalent to the target (equal algorithm and material, comment
ignored). -/
def hasEquivalentKey (ks : List (List Char)) (target : List Char) : Bool :=
  ks.any fun k => algoMaterial k == algoMaterial target

/-- Environment the modelled orchestrator runs against: account query
and key fetch outcomes, plus injected per-account failures of the
key-list and key-register operations. -/
structure CheckedEnv where
  query : Except String (List AccountInfo)
  fetchKey : Except String (List Char)
  listErr : Int → Option String
  addErr : Int → Option String

/-- Mutable Gerrit-side state: the keys registered per account id. -/
def KeyStore : Type := Int → List (List Char)

/-- Loop state of the modelled orchestrator: the evolving key store, the
registration calls issued so far, and the per-account failures. -/
structure LoopState where
  store : KeyStore
  regCalls : List (Int × List Char)
  errs : List (Int × String)

/-- Fatal (whole-user) outcomes of the modelled orchestrator. -/
inductive CheckedFatal where
  | queryFailed (cause : String)
  | keyFetchFailed (cause : String)
  | missingKey
  deriving DecidableEq

/-- Outcome of one modelled orchestrator run. -/
structure CheckedResult where
  store : KeyStore
  regCalls : List (Int × List Char)
  errs : List (Int × String)
  fatal : Option CheckedFatal

/-- Modelled from the spec: one account of step 3 of the orchestrator
(a loop body absent from the sources, exercised only by tests):
skip non-positive ids; list the account's keys (failure is recorded and
aggregated); skip when an equivalent key is present; otherwise register
the normalized key, recording a failure or extending the store. -/
def accountStep (env : CheckedEnv) (target : List Char) (s : LoopState) (gu : AccountInfo) :
    LoopState :=
  if gu.accountID ≤ 0 then s
  else
    match env.listErr gu.accountID with
    | some e => { s with errs := s.errs ++ [(gu.accountID, e)] }
    | none =>
      if hasEquivalentKey (s.store gu.accountID) target then s
      else
        match env.addErr gu.accountID with
        | some e =>
          { s with regCalls := s.regCalls ++ [(gu.accountID, target)],
                   errs := s.errs ++ [(gu.accountID, e)] }
        | none =>
          { store := fun i => if i = gu.accountID then s.store i ++ [target] else s.store i,
            regCalls := s.regCalls ++ [(gu.accountID, target)],
            errs := s.errs }

/-- Modelled from the spec: the full orchestrator for one user — the
`syncUser` with the existing-key check, which is missing from the
sources (only its tests appear). Query
failure, key-fetch failure and an empty key are fatal with no account
touched; an empty match set is success with no key fetch; otherwise the
key is normalized once and the account loop runs. -/
def syncUserChecked (env : CheckedEnv) (store0 : KeyStore) : CheckedResult :=
  match env.query with
  | .error e => ⟨store0, [], [], some (.queryFailed e)⟩
  | .ok gus =>
    if gus.isEmpty then ⟨store0, [], [], none⟩
    else
      match env.fetchKey with
      | .error e => ⟨store0, [], [], some (.keyFetchFailed e)⟩
      | .ok k =>
        if k.isEmpty then ⟨store0, [], [], some .missingKey⟩
        else
          let fin := gus.foldl (accountStep env (normalizeKey k)) ⟨store0, [], []⟩
          ⟨fin.store, fin.regCalls, fin.errs, none⟩

example :
    (syncUserChecked
      { query := .ok [⟨5, false⟩], fetchKey := .ok "a b".toList,
        listErr := fun _ => none, addErr := fun _ => none }
      (fun i => if i = 5 then ["a b old".toList] else [])).regCalls = [] := by decide
example :
    (syncUserChecked
      { query := .ok [⟨5, false⟩], fetchKey := .ok "a b".toList,
        listErr := fun _ => none, addErr := fun _ => none }
      (fun _ => [])).regCalls = [(5, "a b coder-sync".toList)] := by decide

theorem hasEquivalentKey_mono {l l' : List (List Char)} {t : List Char}
    (h : l <+: l') (he : hasEquivalentKey l t = true) : hasEquivalentKey l' t = true := by
  simp only [hasEquivalentKey, List.any_eq_true] at he ⊢
  obtain ⟨x, hx, hb⟩ := he
  exact ⟨x, h.subset hx, hb⟩

theorem hasEquivalentKey_append_self (l : List (List Char)) (t : List Char) :
    hasEquivalentKey (l ++ [t]) t = true := by
  simp [hasEquivalentKey]

theorem accountStep_errs_mono (env : CheckedEnv) (t : List Char) (s : LoopState)
    (gu : AccountInfo) : s.errs <+: (accountStep env t s gu).errs := by
  unfold accountStep
  by_cases h0 : gu.accountID ≤ 0
  · rw [if_pos h0]
  · rw [if_neg h0]
    cases hle : env.listErr gu.accountID with
    | some e => exact List.prefix_append _ _
    | none =>
      by_cases heq : hasEquivalentKey (s.store gu.accountID) t = true
      · simp [heq]
      · simp only [heq, if_false, Bool.false_eq_true]
        cases hae : env.addErr gu.accountID with
        | some e => exact List.prefix_append _ _
        | none => exact List.prefix_refl _

theorem accountStep_store_mono (env : CheckedEnv) (t : List Char) (s : LoopState)
    (gu : AccountInfo) (i : Int) : s.store i <+: (accountStep env t s gu).store i := by
  unfold accountStep
  by_cases h0 : gu.accountID ≤ 0
  · rw [if_pos h0]
  · rw [if_neg h0]
    cases hle : env.listErr gu.accountID with
    | some e => exact List.prefix_refl _
    | none =>
      by_cases heq : hasEquivalentKey (s.store gu.accountID) t = true
      · simp [heq]
      · simp only [heq, if_false, Bool.false_eq_true]
        cases hae : env.addErr gu.accountID with
        | some e => exact List.prefix_refl _
        | none =>
          by_cases hi : i = gu.accountID
          · simp only [hi, if_pos rfl]
            exact List.prefix_append _ _
          · simp only [if_neg hi]
            exact List.prefix_refl _

theorem loop_errs_mono (env : CheckedEnv) (t : List Char) :
    ∀ (gus : List AccountInfo) (s : LoopState),
      s.errs <+: (gus.foldl (accountStep env t) s).errs := by
  intro gus
  induction gus with
  | nil => intro s; exact List.prefix_refl _
  | cons gu gus ih =>
    intro s
    rw [List.foldl_cons]
    exact (accountStep_errs_mono env t s gu).trans (ih _)

theorem loop_store_mono (env : CheckedEnv) (t : List Char) :
    ∀ (gus : List AccountInfo) (s : LoopState) (i : Int),
      s.store i <+: (gus.foldl (accountStep env t) s).store i := by
  intro gus
  induction gus with
  | nil => intro s i; exact List.prefix_refl _
  | cons gu gus ih =>
    intro s i
    rw [List.foldl_cons]
    exact (accountStep_store_mono env t s gu i).trans (ih _ i)

/-- Invariant for the skip-on-present behavior: an account id whose
key-list succeeds and whose store already holds an equivalent key is
left completely untouched by the account loop. -/
theorem accountLoop_untouched (env : CheckedEnv) (t : List Char) (X : Int)
    (hl : env.listErr X = none) :
    ∀ (gus : List AccountInfo) (s : LoopState),
      hasEquivalentKey (s.store X) t = true →
      (gus.foldl (accountStep env t) s).store X = s.store X ∧
        (∀ p ∈ (gus.foldl (accountStep env t) s).regCalls, p ∈ s.regCalls ∨ p.1 ≠ X) ∧
        (∀ q ∈ (gus.foldl (accountStep env t) s).errs, q ∈ s.errs ∨ q.1 ≠ X) := by
  intro gus
  induction gus with
  | nil =>
    intro s _
    exact ⟨rfl, fun p hp => .inl hp, fun q hq => .inl hq⟩
  | cons gu gus ih =>
    intro s hpres
    rw [List.foldl_cons]
    have hstep : (accountStep env t s gu).store X = s.store X ∧
        (∀ p ∈ (accountStep env t s gu).regCalls, p ∈ s.regCalls ∨ p.1 ≠ X) ∧
        (∀ q ∈ (accountStep env t s gu).errs, q ∈ s.errs ∨ q.1 ≠ X) := by
      unfold accountStep
      by_cases h0 : gu.accountID ≤ 0
      · rw [if_pos h0]
        exact ⟨rfl, fun p hp => .inl hp, fun q hq => .inl hq⟩
      · rw [if_neg h0]
        by_cases hX : gu.accountID = X
        · rw [hX, hl]
          simp only [hX, hpres, if_true]
          exact ⟨trivial, fun p hp => .inl hp, fun q hq => .inl hq⟩
        · cases hle : env.listErr gu.accountID with
          | some e =>
            refine ⟨rfl, fun p hp => .inl hp, fun q hq => ?_⟩
            simp only [List.mem_append, List.mem_singleton] at hq
            rcases hq with hq | hq
            · exact .inl hq
            · subst hq
              exact .inr hX
          | none =>
            by_cases heq : hasEquivalentKey (s.store gu.accountID) t = true
            · simp only [heq, if_true]
              exact ⟨trivial, fun p hp => .inl hp, fun q hq => .inl hq⟩
            · simp only [heq, if_false, Bool.false_eq_true]
              cases hae : env.addErr gu.accountID with
              | some e =>
                refine ⟨rfl, fun p hp => ?_, fun q hq => ?_⟩
                · simp only [List.mem_append, List.mem_singleton] at hp
                  rcases hp with hp | hp
                  · exact .inl hp
                  · subst hp
                    exact .inr hX
                · simp only [List.mem_append, List.mem_singleton] at hq
                  rcases hq with hq | hq
                  · exact .inl hq
                  · subst hq
                    exact .inr hX
              | none =>
                refine ⟨?_, fun p hp => ?_, fun q hq => .inl hq⟩
                · show (if X = gu.accountID then s.store X ++ [t] else s.store X) = s.store X
                  exact if_neg fun h => hX h.symm
                · simp only [List.mem_append, List.mem_singleton] at hp
                  rcases hp with hp | hp
                  · exact .inl hp
                  · subst hp
                    exact .inr hX
    obtain ⟨h1, h2, h3⟩ := hstep
    have hpres' : hasEquivalentKey ((accountStep env t s gu).store X) t = true := by
      rw [h1]; exact hpres
    obtain ⟨g1, g2, g3⟩ := ih (accountStep env t s gu) hpres'
    refine ⟨by rw [g1, h1], fun p hp => ?_, fun q hq => ?_⟩
    · rcases g2 p hp with h | h
      · exact h2 p h
      · exact .inr h
    · rcases g3 q hq with h | h
      · exact h3 q h
      · exact .inr h

/-- Claim C1: for an account matched by the query that already carries a
registered key with the same algorithm and key material as the user's
fetched key (comments may differ), the orchestrator issues no
key-registration call for that account and the account's sync succeeds
with no side effect: no error entry carries its id and its key store is
unchanged. (Orchestrator modelled from the spec; its key-list succeeds
for this account.) -/
theorem syncUserChecked_present_key_skipped (env : CheckedEnv) (store0 : KeyStore)
    (gus : List AccountInfo) (k : List Char) (gu : AccountInfo)
    (hq : env.query = .ok gus) (hf : env.fetchKey = .ok k) (hkne : k ≠ [])
    (ha : gu ∈ gus) (hl : env.listErr gu.accountID = none)
    (hpres : hasEquivalentKey (store0 gu.accountID) (normalizeKey k) = true) :
    (∀ p ∈ (syncUserChecked env store0).regCalls, p.1 ≠ gu.accountID) ∧
      (∀ q ∈ (syncUserChecked env store0).errs, q.1 ≠ gu.accountID) ∧
      (syncUserChecked env store0).store gu.accountID = store0 gu.accountID := by
  have hne : ¬ gus.isEmpty = true := by
    simp only [List.isEmpty_iff]
    exact List.ne_nil_of_mem ha
  have hke : ¬ k.isEmpty = true := by
    simp only [List.isEmpty_iff]
    exact hkne
  unfold syncUserChecked
  rw [hq, hf]
  simp only [hne, hke, if_false, Bool.false_eq_true]
  obtain ⟨g1, g2, g3⟩ :=
    accountLoop_untouched env (normalizeKey k) gu.accountID hl gus ⟨store0, [], []⟩ hpres
  refine ⟨fun p hp => ?_, fun q hq' => ?_, g1⟩
  · rcases g2 p hp with h | h
    · simp at h
    · exact h
  · rcases g3 q hq' with h | h
    · simp at h
    · exact h

theorem accountLoop_clean_covers (env : CheckedEnv) (t : List Char) :
    ∀ (gus : List AccountInfo) (s : LoopState),
      (gus.foldl (accountStep env t) s).errs = s.errs →
      ∀ gu ∈ gus, 0 < gu.accountID →
        env.listErr gu.accountID = none ∧
          hasEquivalentKey ((gus.foldl (accountStep env t) s).store gu.accountID) t = true := by
  intro gus
  induction gus with
  | nil =>
    intro s _ gu hmem
    exact absurd hmem (List.not_mem_nil _)
  | cons gu0 gus ih =>
    intro s hclean gu hmem hpos
    rw [List.foldl_cons] at hclean ⊢
    have hpre1 : s.errs <+: (accountStep env t s gu0).errs :=
      accountStep_errs_mono env t s gu0
    have hpre2 : (accountStep env t s gu0).errs <+:
        (gus.foldl (accountStep env t) (accountStep env t s gu0)).errs :=
      loop_errs_mono env t gus _
    have hsers : (accountStep env t s gu0).errs = s.errs := by
      have hle2 := hpre2.length_le
      rw [hclean] at hle2
      exact (hpre1.eq_of_length (le_antisymm hpre1.length_le hle2)).symm
    have hclean' : (gus.foldl (accountStep env t) (accountStep env t s gu0)).errs =
        (accountStep env t s gu0).errs := by
      rw [hclean, hsers]
    rcases List.mem_cons.mp hmem with heq | hmem'
    · subst heq
      have h0 : ¬ gu.accountID ≤ 0 := by omega
      cases hle : env.listErr gu.accountID with
      | some e =>
        exfalso
        unfold accountStep at hsers
        rw [if_neg h0, hle] at hsers
        simp at hsers
      | none =>
        refine ⟨rfl, ?_⟩
        by_cases heq2 : hasEquivalentKey (s.store gu.accountID) t = true
        · have hstep_eq : accountStep env t s gu = s := by
            unfold accountStep
            rw [if_neg h0, hle]
            simp [heq2]
          have hmono := loop_store_mono env t gus (accountStep env t s gu) gu.accountID
          rw [hstep_eq] at hmono ⊢
          exact hasEquivalentKey_mono hmono heq2
        · cases hae : env.addErr gu.accountID with
          | some e =>
            exfalso
            unfold accountStep at hsers
            rw [if_neg h0, hle] at hsers
            simp only [heq2, if_false, Bool.false_eq_true, hae] at hsers
            simp at hsers
          | none =>
            have hs' : (accountStep env t s gu).store gu.accountID =
                s.store gu.accountID ++ [t] := by
              unfold accountStep
              rw [if_neg h0, hle]
              simp [heq2, hae]
            have hmono := loop_store_mono env t gus (accountStep env t s gu) gu.accountID
            exact hasEquivalentKey_mono hmono
              (by rw [hs']; exact hasEquivalentKey_append_self _ _)
    · exact ih (accountStep env t s gu0) hclean' gu hmem' hpos

theorem accountLoop_all_present (env : CheckedEnv) (t : List Char) :
    ∀ (gus : List AccountInfo) (s : LoopState),
      (∀ gu ∈ gus, 0 < gu.accountID →
        env.listErr gu.accountID = none ∧
          hasEquivalentKey (s.store gu.accountID) t = true) →
      gus.foldl (accountStep env t) s = s := by
  intro gus
  induction gus with
  | nil => intro s _; rfl
  | cons gu0 gus ih =>
    intro s h
    rw [List.foldl_cons]
    have hstep : accountStep env t s gu0 = s := by
      unfold accountStep
      by_cases h0 : gu0.accountID ≤ 0
      · rw [if_pos h0]
      · obtain ⟨hle, heq⟩ := h gu0 (List.mem_cons_self _ _) (by omega)
        rw [if_neg h0, hle]
        simp [heq]
    rw [hstep]
    exact ih s fun gu hmem hpos => h gu (List.mem_cons_of_mem _ hmem) hpos

theorem syncUserChecked_present_key_skipped_witness :
    (let env : CheckedEnv :=
      { query := .ok [⟨5, false⟩], fetchKey := .ok "ssh-rsa AAAB".toList,
        listErr := fun _ => none, addErr := fun _ => none }
     let store0 : KeyStore := fun i => if i = 5 then ["ssh-rsa AAAB old-comment".toList] else []
     (∀ p ∈ (syncUserChecked env store0).regCalls, p.1 ≠ (5 : Int)) ∧
       (∀ q ∈ (syncUserChecked env store0).errs, q.1 ≠ (5 : Int)) ∧
       (syncUserChecked env store0).store 5 = store0 5) :=
  syncUserChecked_present_key_skipped _ _ [⟨5, false⟩] ("ssh-rsa AAAB".toList) ⟨5, false⟩
    rfl rfl (by decide) (by decide) rfl (by decide)

/-- Claim C2 as stated is falsified by a registration failure: with no
external state change between runs, a key-register call that fails in
the first run leaves the key absent, so the second run performs a
registration call again instead of zero. -/
theorem syncUserChecked_second_run_recalls :
    (syncUserChecked
      { query := .ok [⟨1, false⟩], fetchKey := .ok "a b".toList,
        listErr := fun _ => none, addErr := fun _ => some "boom" }
      ((syncUserChecked
        { query := .ok [⟨1, false⟩], fetchKey := .ok "a b".toList,
          listErr := fun _ => none, addErr := fun _ => some "boom" }
        (fun _ => [])).store)).regCalls ≠ [] := by decide

/-- Claim C2 (amended): when the first orchestrator run finishes with no
fatal error and no per-account error, a second run against the
first run's resulting key store — no external state change in
between — performs zero key-registration calls. -/
theorem syncUserChecked_clean_run_idempotent (env : CheckedEnv) (store0 : KeyStore)
    (hfatal : (syncUserChecked env store0).fatal = none)
    (herrs : (syncUserChecked env store0).errs = []) :
    (syncUserChecked env ((syncUserChecked env store0).store)).regCalls = [] := by
  obtain ⟨q, fk, le, ae⟩ := env
  cases q with
  | error e => simp [syncUserChecked] at hfatal
  | ok gus =>
    by_cases hne : gus.isEmpty
    · simp [syncUserChecked, hne]
    · cases fk with
      | error e => simp [syncUserChecked, hne] at hfatal
      | ok k =>
        by_cases hke : k.isEmpty
        · simp [syncUserChecked, hne, hke] at hfatal
        · simp only [syncUserChecked, hne, hke, if_false, Bool.false_eq_true] at herrs ⊢
          have hcover := accountLoop_clean_covers
            ⟨.ok gus, .ok k, le, ae⟩ (normalizeKey k) gus ⟨store0, [], []⟩ herrs
          have hall := accountLoop_all_present
            ⟨.ok gus, .ok k, le, ae⟩ (normalizeKey k) gus
            ⟨(gus.foldl (accountStep ⟨.ok gus, .ok k, le, ae⟩ (normalizeKey k))
                ⟨store0, [], []⟩).store, [], []⟩
            (fun gu hmem hpos => hcover gu hmem hpos)
          rw [hall]

theorem syncUserChecked_clean_run_idempotent_witness :
    (let env : CheckedEnv :=
      { query := .ok [⟨1, false⟩], fetchKey := .ok "a b".toList,
        listErr := fun _ => none, addErr := fun _ => none }
     (syncUserChecked env ((syncUserChecked env (fun _ => [])).store)).regCalls = []) :=
  syncUserChecked_clean_run_idempotent _ _ (by decide) (by decide)

/-! ## Facts about the normalization pipeline -/

theorem breakOnChar_pair_none {c : Char} {l a : List Char}
    (h : breakOnChar c l = (a, none)) : a = l ∧ c ∉ l := by
  induction l generalizing a with
  | nil =>
    simp only [breakOnChar, Prod.mk.injEq] at h
    simp [← h.1]
  | cons x xs ih =>
    simp only [breakOnChar] at h
    by_cases hx : x = c
    · rw [if_pos hx] at h
      simp at h
    · rw [if_neg hx] at h
      obtain ⟨h1, h2⟩ := Prod.mk.injEq .. ▸ h
      have hxs : breakOnChar c xs = ((breakOnChar c xs).1, none) := by
        rw [← h2]
      obtain ⟨ha, hm⟩ := ih hxs
      subst h1
      constructor
      · rw [ha]
      · simp only [List.mem_cons, not_or]
        exact ⟨fun hc => hx hc.symm, hm⟩

theorem breakOnChar_pair_some {c : Char} {l a r : List Char}
    (h : breakOnChar c l = (a, some r)) : l = a ++ c :: r ∧ c ∉ a := by
  induction l generalizing a r with
  | nil => simp [breakOnChar] at h
  | cons x xs ih =>
    simp only [breakOnChar] at h
    by_cases hx : x = c
    · rw [if_pos hx] at h
      obtain ⟨h1, h2⟩ := Prod.mk.injEq .. ▸ h
      subst hx
      simp [← h1, Option.some_inj.mp h2]
    · rw [if_neg hx] at h
      obtain ⟨h1, h2⟩ := Prod.mk.injEq .. ▸ h
      have hxs : breakOnChar c xs = ((breakOnChar c xs).1, some r) := by
        rw [← h2]
      obtain ⟨hl, hm⟩ := ih hxs
      subst h1
      constructor
      · rw [List.cons_append, ← hl]
      · simp only [List.mem_cons, not_or]
        exact ⟨fun hc => hx hc.symm, hm⟩

theorem breakOnChar_of_not_mem {c : Char} {l : List Char} (h : c ∉ l) :
    breakOnChar c l = (l, none) := by
  induction l with
  | nil => rfl
  | cons x xs ih =>
    simp only [List.mem_cons, not_or] at h
    have hxc : ¬ x = c := fun hc => h.1 hc.symm
    simp only [breakOnChar, if_neg hxc, ih h.2]

theorem breakOnChar_clean_split {c : Char} {a : List Char} (r : List Char) (h : c ∉ a) :
    breakOnChar c (a ++ c :: r) = (a, some r) := by
  induction a with
  | nil => simp [breakOnChar]
  | cons x xs ih =>
    simp only [List.mem_cons, not_or] at h
    have hxc : ¬ x = c := fun hc => h.1 hc.symm
    simp only [List.cons_append, breakOnChar, if_neg hxc, List.append_eq, ih h.2]

/-- Head-side normal form: the list is empty or starts with a
non-whitespace character. -/
def headNotSpace : List Char → Bool
  | [] => true
  | x :: _ => !isGoSpace x

theorem headNotSpace_dropWhile (l : List Char) :
    headNotSpace (l.dropWhile isGoSpace) = true := by
  induction l with
  | nil => rfl
  | cons x xs ih =>
    rw [List.dropWhile_cons]
    by_cases h : isGoSpace x = true
    · simp only [h, if_true]
      exact ih
    · simp only [h, if_false, Bool.false_eq_true]
      simp only [headNotSpace, Bool.not_eq_true']
      exact Bool.not_eq_true _ ▸ h

theorem dropWhile_eq_self_of_head {l : List Char} (h : headNotSpace l = true) :
    l.dropWhile isGoSpace = l := by
  cases l with
  | nil => rfl
  | cons x xs =>
    simp only [headNotSpace, Bool.not_eq_true'] at h
    rw [List.dropWhile_cons, h]
    simp

theorem headNotSpace_mono {pre l : List Char} (hp : pre <+: l)
    (h : headNotSpace l = true) : headNotSpace pre = true := by
  cases pre with
  | nil => rfl
  | cons x xs =>
    obtain ⟨t, ht⟩ := hp
    rw [← ht] at h
    exact h

theorem headNotSpace_append {u : List Char} (v : List Char)
    (hu : headNotSpace u = true) (hne : u ≠ []) : headNotSpace (u ++ v) = true := by
  cases u with
  | nil => exact absurd rfl hne
  | cons x xs => exact hu

theorem prefix_trimRight (l : List Char) : trimRight l <+: l :=
  show List.rdropWhile isGoSpace l <+: l from List.rdropWhile_prefix _ _

theorem headNotSpace_trimSpace (l : List Char) :
    headNotSpace (trimSpace l) = true :=
  headNotSpace_mono (prefix_trimRight (trimLeft l)) (headNotSpace_dropWhile l)

theorem headNotSpace_reverse_trimSpace (l : List Char) :
    headNotSpace (trimSpace l).reverse = true := by
  unfold trimSpace trimRight
  rw [List.reverse_reverse]
  exact headNotSpace_dropWhile _

theorem trimSpace_eq_self {l : List Char} (h1 : headNotSpace l = true)
    (h2 : headNotSpace l.reverse = true) : trimSpace l = l := by
  unfold trimSpace trimLeft trimRight
  rw [dropWhile_eq_self_of_head h1, dropWhile_eq_self_of_head h2, List.reverse_reverse]

theorem trimSpace_idem (l : List Char) : trimSpace (trimSpace l) = trimSpace l :=
  trimSpace_eq_self (headNotSpace_trimSpace l) (headNotSpace_reverse_trimSpace l)

theorem splitOnChar3_none {l a : List Char} (hb : breakOnChar ' ' l = (a, none)) :
    splitOnCharN ' ' 3 l = [a] := by
  simp [splitOnCharN, hb]

theorem splitOnChar3_two {l a r b : List Char} (hb : breakOnChar ' ' l = (a, some r))
    (hb2 : breakOnChar ' ' r = (b, none)) : splitOnCharN ' ' 3 l = [a, b] := by
  simp [splitOnCharN, hb, hb2]

theorem splitOnChar3_three {l a r b r2 : List Char} (hb : breakOnChar ' ' l = (a, some r))
    (hb2 : breakOnChar ' ' r = (b, some r2)) : splitOnCharN ' ' 3 l = [a, b, r2] := by
  simp [splitOnCharN, hb, hb2]

theorem normalizeKey_break_none {k a : List Char}
    (hb : breakOnChar ' ' (trimSpace k) = (a, none)) : normalizeKey k = trimSpace k := by
  obtain ⟨ha, _⟩ := breakOnChar_pair_none hb
  unfold normalizeKey
  rw [splitOnChar3_none hb]
  simp [joinSpace, ha]

theorem normalizeKey_break_two {k a r b : List Char}
    (hb : breakOnChar ' ' (trimSpace k) = (a, some r))
    (hb2 : breakOnChar ' ' r = (b, none)) :
    normalizeKey k = a ++ ' ' :: (b ++ ' ' :: coderSync) := by
  unfold normalizeKey
  rw [splitOnChar3_two hb hb2]
  simp [joinSpace]

theorem normalizeKey_break_three {k a r b r2 : List Char}
    (hb : breakOnChar ' ' (trimSpace k) = (a, some r))
    (hb2 : breakOnChar ' ' r = (b, some r2)) :
    normalizeKey k = trimSpace k := by
  obtain ⟨hl, _⟩ := breakOnChar_pair_some hb
  obtain ⟨hr, _⟩ := breakOnChar_pair_some hb2
  obtain ⟨hb1, hr2⟩ := breakOnChar_pair_some hb2
  unfold normalizeKey
  rw [splitOnChar3_three hb hb2]
  simp only [List.length_cons, List.length_nil, joinSpace]
  rw [hl, ← hb1]

theorem normalizeKey_no_space {k : List Char} (h : ' ' ∉ trimSpace k) :
    normalizeKey k = trimSpace k :=
  normalizeKey_break_none (breakOnChar_of_not_mem h)

/-- Claim C10: the key normalization of `addSSHKey` is idempotent —
applied to its own output it returns that output unchanged. -/
theorem normalizeKey_idem (k : List Char) :
    normalizeKey (normalizeKey k) = normalizeKey k := by
  cases hb : breakOnChar ' ' (trimSpace k) with
  | mk a o =>
    cases o with
    | none =>
      have h1 : normalizeKey k = trimSpace k := normalizeKey_break_none hb
      have hb2 : breakOnChar ' ' (trimSpace (trimSpace k)) = (a, none) := by
        rw [trimSpace_idem]
        exact hb
      rw [h1, normalizeKey_break_none hb2, trimSpace_idem]
    | some r =>
      cases hb2 : breakOnChar ' ' r with
      | mk b o2 =>
        cases o2 with
        | some r2 =>
          have h1 := normalizeKey_break_three hb hb2
          have hb3 : breakOnChar ' ' (trimSpace (trimSpace k)) = (a, some r) := by
            rw [trimSpace_idem]
            exact hb
          rw [h1, normalizeKey_break_three hb3 hb2, trimSpace_idem]
        | none =>
          obtain ⟨hbn, hr⟩ := breakOnChar_pair_none hb2
          obtain ⟨hl, hna⟩ := breakOnChar_pair_some hb
          have h1 := normalizeKey_break_two hb hb2
          subst hbn
          rw [h1]
          have hha : headNotSpace a = true :=
            headNotSpace_mono ⟨' ' :: b, hl.symm⟩ (headNotSpace_trimSpace k)
          have hane : a ≠ [] := by
            intro hnil
            subst hnil
            have := headNotSpace_trimSpace k
            rw [hl] at this
            simp [headNotSpace, isGoSpace] at this
          have htrim : trimSpace (a ++ ' ' :: (b ++ ' ' :: coderSync)) =
              a ++ ' ' :: (b ++ ' ' :: coderSync) := by
            apply trimSpace_eq_self
            · exact headNotSpace_append _ hha hane
            · simp only [List.reverse_append, List.reverse_cons, List.append_assoc,
                List.nil_append, List.cons_append]
              apply headNotSpace_append
              · decide
              · decide
          have hbo : breakOnChar ' ' (a ++ ' ' :: (b ++ ' ' :: coderSync)) =
              (a, some (b ++ ' ' :: coderSync)) := breakOnChar_clean_split _ hna
          have hbo2 : breakOnChar ' ' (b ++ ' ' :: coderSync) = (b, some coderSync) :=
            breakOnChar_clean_split _ hr
          have h3 := normalizeKey_break_three (k := a ++ ' ' :: (b ++ ' ' :: coderSync))
            (by rw [htrim]; exact hbo) hbo2
          rw [h3, htrim]

/-- Split at the first whitespace-class character: the reading under
which the claimed normalization rule splits "on whitespace". -/
def breakOnSpaceClass : List Char → List Char × Option (List Char)
  | [] => ([], none)
  | x :: xs =>
    if isGoSpace x then ([], some xs)
    else
      let r := breakOnSpaceClass xs
      (x :: r.1, r.2)

/-- Splitting the trimmed string on whitespace into at most 3 tokens,
the third keeping the remainder. -/
def splitOnSpaceClass3 (l : List Char) : List (List Char) :=
  match breakOnSpaceClass l with
  | (a, none) => [a]
  | (a, some r) =>
    match breakOnSpaceClass r with
    | (b, none) => [a, b]
    | (b, some r2) => [a, b, r2]

/-- The normalization rule exactly as the claim words it: trim; split
the trimmed string on whitespace into at most 3 tokens; append
"coder-sync" iff exactly 2 tokens result; re-join with single spaces. -/
def normalizeKeyClaimed (k : List Char) : List Char :=
  let pieces := splitOnSpaceClass3 (trimSpace k)
  let pieces2 := if pieces.length = 2 then pieces ++ [coderSync] else pieces
  joinSpace pieces2

/-- Split at the first two occurrences of the space character proper,
the third piece keeping the remainder verbatim: the amended reading. -/
def splitSpace3 (l : List Char) : List (List Char) :=
  match breakOnChar ' ' l with
  | (a, none) => [a]
  | (a, some r) =>
    match breakOnChar ' ' r with
    | (b, none) => [a, b]
    | (b, some r2) => [a, b, r2]

/-- The amended normalization rule: trim; split on single space
characters into at most 3 pieces with the third keeping the remainder;
append "coder-sync" iff exactly 2 pieces result; re-join with single
spaces. -/
def normalizeKeyAmended (k : List Char) : List Char :=
  let pieces := splitSpace3 (trimSpace k)
  let pieces2 := if pieces.length = 2 then pieces ++ [coderSync] else pieces
  joinSpace pieces2

theorem splitOnCharN_three_eq_splitSpace3 (l : List Char) :
    splitOnCharN ' ' 3 l = splitSpace3 l := by
  cases hb : breakOnChar ' ' l with
  | mk a o =>
    cases o with
    | none =>
      rw [splitOnChar3_none hb]
      simp [splitSpace3, hb]
    | some r =>
      cases hb2 : breakOnChar ' ' r with
      | mk b o2 =>
        cases o2 with
        | none =>
          rw [splitOnChar3_two hb hb2]
          simp [splitSpace3, hb, hb2]
        | some r2 =>
          rw [splitOnChar3_three hb hb2]
          simp [splitSpace3, hb, hb2]

/-- Claim C6 fails as stated: the code splits only on the space
character, not on whitespace, so for a raw key whose two fields are
separated by a tab the body sent differs from the claimed rule (the
code sends the trimmed string unchanged, the claimed rule appends the
"coder-sync" comment and replaces the tab with a space). -/
theorem addSSHKeyRequest_whitespace_split_cex :
    (addSSHKeyRequest 1 ['a', '\t', 'b']).body ≠ normalizeKeyClaimed ['a', '\t', 'b'] := by
  decide

/-- Claim C6 (amended): the key string sent by `addSSHKey` equals the
result of trimming whitespace, splitting the trimmed string on single
space characters into at most 3 pieces (the third keeping the remainder
verbatim), appending "coder-sync" as a third piece iff exactly 2 pieces
result, and re-joining the pieces with single spaces. -/
theorem addSSHKeyRequest_body_normalized (accountID : Int) (k : List Char) :
    (addSSHKeyRequest accountID k).body = normalizeKeyAmended k := by
  unfold addSSHKeyRequest normalizeKey normalizeKeyAmended
  rw [splitOnCharN_three_eq_splitSpace3]

/-- Claim C9: on malformed input — trimmed key containing no space, so
zero or one space-separated tokens — the normalization neither fails
nor appends a comment: the request is still issued, with the trimmed
string unchanged as its body. -/
theorem addSSHKeyRequest_malformed_key_total (accountID : Int) (k : List Char)
    (h : ' ' ∉ trimSpace k) :
    addSSHKeyRequest accountID k = { accountID := accountID, body := trimSpace k } := by
  unfold addSSHKeyRequest
  rw [normalizeKey_no_space h]

theorem addSSHKeyRequest_malformed_key_total_witness :
    (' ' ∉ trimSpace "AAAAB3NzaC1yc2E".toList) ∧
      addSSHKeyRequest 7 "AAAAB3NzaC1yc2E".toList =
        { accountID := 7, body := trimSpace "AAAAB3NzaC1yc2E".toList } :=
  ⟨by decide, addSSHKeyRequest_malformed_key_total 7 _ (by decide)⟩
